import Mathlib

/-!
# CacheFlow: verification of the in-memory store and AOF persistence layer

Shallow embedding of the Go sources:
* `internal/store/store.go`   — the key-value store (`Store`, `Set`, `Get`,
  `Exists`, `Delete`, `DeleteExpired`, `New`, `recordCommand`);
* `internal/persistence` (AOF) — `checkAOFIntegrity`, `AOF.Load`, `AOF.Write`;
* `internal/server/server.go` — `handleCommand`.

Modelling conventions:
* instants and durations are `Int` nanoseconds (Go `time.Time` / `time.Duration`);
  `time.Now()` becomes an explicit `now : Int` argument and `t.After(e)` is `t > e`;
* values are `String` — at the wire and log boundary all values are textual and
  Go's `fmt.Sprintf "%v"` on a string is the identity;
* the Go map `map[string]Item` is an association list `List (String × Item)`
  (insertion order; Go map iteration order is irrelevant to the removal
  semantics proved here);
* the AOF file is its list of lines `List String`; `AOF.Write` appends a line;
  file-handle errors are out of scope (the in-memory transition is modelled);
* `time.ParseDuration` and `time.Duration.String` are opaque to the store logic,
  so they are explicit parameters `parseDuration : String → Option Int` and
  `durToString : Int → String` of the definitions that use them;
* fallible paths (`checkAOFIntegrity`, `AOF.Load`, `store.New`) return
  `Except String _` mirroring Go's `error` returns.
-/

namespace CacheFlow

/-! ## Go `strings` primitives -/

/-- Go `strings.Join(parts, " ")`. -/
def joinParts : List String → String
  | [] => ""
  | [p] => p
  | p :: ps => p ++ " " ++ joinParts ps

/-- Accumulator-based splitter over the character list: the core of Go
`strings.Fields` (split around runs of whitespace, dropping empty fields).
`acc` holds the characters of the current field in reverse. -/
def fieldsCore : List Char → List Char → List String
  | acc, [] => if acc.isEmpty then [] else [String.mk acc.reverse]
  | acc, c :: cs =>
    if c.isWhitespace then
      if acc.isEmpty then fieldsCore [] cs
      else String.mk acc.reverse :: fieldsCore [] cs
    else fieldsCore (c :: acc) cs

/-- Go `strings.Fields`. -/
def fields (s : String) : List String := fieldsCore [] s.data

/-- Character-level trim: Go `strings.TrimSpace` drops leading and trailing
whitespace. -/
def trimChars (cs : List Char) : List Char :=
  ((cs.dropWhile Char.isWhitespace).reverse.dropWhile Char.isWhitespace).reverse

/-- Go `strings.TrimSpace`. -/
def trimSpace (s : String) : String := String.mk (trimChars s.data)

/-- Go `strings.ToUpper`, at the character-list level (the command words it is
applied to are ASCII). -/
def toUpperStr (s : String) : String := String.mk (s.data.map Char.toUpper)

/-- A wire/log token: nonempty and whitespace-free (exactly the strings that
Go `strings.Fields` produces). -/
def isToken (w : String) : Prop :=
  w.data ≠ [] ∧ ∀ c ∈ w.data, c.isWhitespace = false

instance (w : String) : Decidable (isToken w) := by
  unfold isToken; infer_instance

example : fields ("SET a 1") = ["SET", "a", "1"] := by decide
example : fields ("  SET   a  ") = ["SET", "a"] := by decide
example : trimSpace ("  SET a ") = "SET a" := by decide
example : joinParts ["SET", "k", "v"] = "SET k v" := by decide

/-! ## Data model (`store.go`) -/

/-- `store.Item`: a value with an optional absolute expiration instant
(`Value interface{}`, `Expiration *time.Time`). -/
structure Item where
  value : String
  expiration : Option Int
deriving Repr, DecidableEq

/-- `store.Store` fused with the `persistence.AOF` state it owns:
`items` is the Go map, `aofEnabled` models `aof != nil` / `aof.file != nil`,
`isLoading` is the AOF's replay-mode flag, and `aofLog` is the content of the
append-only file as a list of lines. -/
structure Store where
  items : List (String × Item)
  aofEnabled : Bool
  isLoading : Bool
  aofLog : List String
deriving Repr, DecidableEq

/-- Go map assignment `m[k] = it`: overwrite in place, else append. -/
def setItem : List (String × Item) → String → Item → List (String × Item)
  | [], k, it => [(k, it)]
  | (k', it') :: rest, k, it =>
    if k' = k then (k, it) :: rest else (k', it') :: setItem rest k it

/-- Go map `delete(m, k)`. -/
def delItem : List (String × Item) → String → List (String × Item)
  | [], _ => []
  | (k', it') :: rest, k =>
    if k' = k then delItem rest k else (k', it') :: delItem rest k

/-- Go map read `m[k]`. -/
def findItem : List (String × Item) → String → Option Item
  | [], _ => none
  | (k', it') :: rest, k => if k' = k then some it' else findItem rest k

/-- `Store.recordCommand` combined with `AOF.Write`: a no-op when the AOF is
disabled (`s.aof == nil` / `a.file == nil`) or when replay is in progress
(`a.isLoading`); otherwise appends `strings.Join(parts, " ")` as one line. -/
def recordCommand (s : Store) (parts : List String) : Store :=
  if s.aofEnabled = false then s
  else if s.isLoading then s
  else { s with aofLog := s.aofLog ++ [joinParts parts] }

/-- `Store.Set`: unconditional overwrite; `ttl > 0` gives expiration
`now + ttl`, otherwise no expiration; then records
`SET key value [ttl.String()]`. -/
def Store.Set (s : Store) (key value : String) (ttl : Int) (now : Int)
    (durToString : Int → String) : Store :=
  let expiration : Option Int := if ttl > 0 then some (now + ttl) else none
  let s' := { s with items := setItem s.items key ⟨value, expiration⟩ }
  recordCommand s'
    (["SET", key, value] ++ if ttl > 0 then [durToString ttl] else [])

/-- `Store.Delete`: removes the key from the map and records `DELETE key`
(the record is unconditional — `store.go` does not check presence first). -/
def Store.Delete (s : Store) (key : String) : Store :=
  recordCommand { s with items := delItem s.items key } ["DELETE", key]

/-- `Store.Get`: `(nil, false)` when the key is absent or
`time.Now().After(*item.Expiration)`; modelled as `Option String`. -/
def Store.Get (s : Store) (key : String) (now : Int) : Option String :=
  match findItem s.items key with
  | none => none
  | some it =>
    match it.expiration with
    | some e => if now > e then none else some it.value
    | none => some it.value

/-- `Store.Exists`: same lazy-expiry check as `Get`, returning only the flag. -/
def Store.Exists (s : Store) (key : String) (now : Int) : Bool :=
  match findItem s.items key with
  | none => false
  | some it =>
    match it.expiration with
    | some e => !decide (now > e)
    | none => true

/-- `Store.DeleteExpired`: removes every entry whose expiration satisfies
`now.After(*item.Expiration)` (strictly before `now`). -/
def Store.DeleteExpired (s : Store) (now : Int) : Store :=
  { s with
    items := s.items.filter fun p =>
      match p.2.expiration with
      | some e => !decide (now > e)
      | none => true }

/-! ## AOF persistence (`internal/persistence`) -/

/-- `persistence.checkAOFIntegrity`: scans the lines in order; empty (after
trimming) lines are skipped; a line whose fields are fewer than 2, a `SET`
with fewer than 3 fields, a `DELETE` with other than 2 fields, or an unknown
command word is a fatal error. -/
def checkAOFIntegrity : List String → Except String Unit
  | [] => Except.ok ()
  | line :: rest =>
    let l := trimSpace line
    if l = "" then checkAOFIntegrity rest
    else
      let parts := fields l
      if parts.length < 2 then Except.error ("invalid command format: " ++ l)
      else
        let cmd := toUpperStr parts.headI
        if cmd = "SET" then
          if parts.length < 3 then Except.error ("invalid SET command: " ++ l)
          else checkAOFIntegrity rest
        else if cmd = "DELETE" then
          if parts.length ≠ 2 then Except.error ("invalid DELETE command: " ++ l)
          else checkAOFIntegrity rest
        else Except.error ("unknown command: " ++ cmd)

/-- The replay handler closed over the store in `store.New` (`store.go:41-77`):
splits the line into fields, replays `SET`/`DELETE` through the regular store
operations (whose log append is suppressed by the loading flag), and returns
an error for a malformed or unknown command. -/
def replayHandler (parseDuration : String → Option Int)
    (durToString : Int → String) (now : Int) (s : Store) (command : String) :
    Except String Store :=
  let parts := fields command
  if parts.length = 0 then Except.ok s
  else
    let cmd := toUpperStr parts.headI
    if cmd = "SET" then
      if parts.length < 3 then Except.error ("invalid SET command: " ++ command)
      else
        let key := parts.getD 1 ""
        if parts.length > 3 then
          match parseDuration (parts.getLastD ("")) with
          | some d =>
            Except.ok (s.Set key (joinParts ((parts.drop 2).dropLast)) d now
              durToString)
          | none =>
            Except.ok (s.Set key (joinParts (parts.drop 2)) 0 now durToString)
        else Except.ok (s.Set key (joinParts (parts.drop 2)) 0 now durToString)
    else if cmd = "DELETE" then
      if parts.length ≠ 2 then
        Except.error ("invalid DELETE command: " ++ command)
      else Except.ok (s.Delete (parts.getD 1 ""))
    else Except.error ("unknown command: " ++ cmd)

/-- The per-line loop of `AOF.Load`: trim each line, skip empties, feed the
rest to the handler; a handler error aborts the loop. -/
def loadLines (handler : Store → String → Except String Store) :
    Store → List String → Except String Store
  | s, [] => Except.ok s
  | s, line :: rest =>
    let l := trimSpace line
    if l = "" then loadLines handler s rest
    else
      match handler s l with
      | Except.error e => Except.error ("error processing command: " ++ e)
      | Except.ok s' => loadLines handler s' rest

/-- `AOF.Load`: re-runs the integrity check, then replays every line with the
loading flag set (so replayed mutations are not re-appended). -/
def AOF.Load (handler : Store → String → Except String Store)
    (lines : List String) (s : Store) : Except String Store :=
  match checkAOFIntegrity lines with
  | Except.error e =>
    Except.error ("AOF file integrity check failed before loading: " ++ e)
  | Except.ok _ =>
    match loadLines handler { s with isLoading := true } lines with
    | Except.error e => Except.error e
    | Except.ok s' => Except.ok { s' with isLoading := false }

/-- `store.New`: with persistence disabled just an empty store; otherwise
`persistence.New` (whose integrity check is fatal) followed by `AOF.Load`
with the replay handler. `lines` is the current content of the AOF file,
which the store keeps appending to (the file is opened in append mode). -/
def Store.New (parseDuration : String → Option Int)
    (durToString : Int → String) (aofEnabled : Bool) (lines : List String)
    (now : Int) : Except String Store :=
  if aofEnabled = false then
    Except.ok { items := [], aofEnabled := false, isLoading := false,
                aofLog := [] }
  else
    match checkAOFIntegrity lines with
    | Except.error e =>
      Except.error ("failed to initialize AOF: AOF file integrity check failed: "
        ++ e)
    | Except.ok _ =>
      let s0 : Store :=
        { items := [], aofEnabled := true, isLoading := false, aofLog := lines }
      match AOF.Load (replayHandler parseDuration durToString now) lines s0 with
      | Except.error e =>
        Except.error ("failed to load data from AOF: " ++ e)
      | Except.ok s => Except.ok s

/-! ## Wire protocol (`internal/server/server.go`) -/

/-- `Server.handleCommand`: one request line in, one response line out, plus
the store transition. The `SET` branch parses an optional trailing duration
token leniently; `GET` renders the value with `fmt.Sprintf "%v"` (identity on
strings) or `"NIL"`. -/
def handleCommand (parseDuration : String → Option Int)
    (durToString : Int → String) (now : Int) (s : Store) (cmd : String) :
    String × Store :=
  let parts := fields cmd
  if parts.length = 0 then ("ERROR: Empty command", s)
  else
    let c := toUpperStr parts.headI
    if c = "SET" then
      if parts.length < 3 then ("ERROR: SET requires key and value", s)
      else
        let key := parts.getD 1 ""
        if parts.length > 3 then
          match parseDuration (parts.getLastD ("")) with
          | some d =>
            ("OK", s.Set key (joinParts ((parts.drop 2).dropLast)) d now
              durToString)
          | none =>
            ("OK", s.Set key (joinParts (parts.drop 2)) 0 now durToString)
        else ("OK", s.Set key (joinParts (parts.drop 2)) 0 now durToString)
    else if c = "GET" then
      if parts.length ≠ 2 then ("ERROR: GET requires key", s)
      else
        match s.Get (parts.getD 1 "") now with
        | none => ("NIL", s)
        | some v => (v, s)
    else if c = "DELETE" then
      if parts.length ≠ 2 then ("ERROR: DELETE requires key", s)
      else ("OK", s.Delete (parts.getD 1 ""))
    else if c = "EXISTS" then
      if parts.length ≠ 2 then ("ERROR: EXISTS requires key", s)
      else (if s.Exists (parts.getD 1 "") now then ("1") else ("0"), s)
    else ("ERROR: Unknown command", s)

/-! ## Session operations (for the persistence round-trip) -/

/-- One client-driven mutation of a live session, with the wall-clock instant
at which it executed. -/
inductive Op where
  | set (key value : String) (ttl : Int) (now : Int)
  | del (key : String)
deriving Repr, DecidableEq

/-- Apply one session operation through the store's public interface. -/
def applyOp (durToString : Int → String) (s : Store) : Op → Store
  | Op.set k v ttl now => s.Set k v ttl now durToString
  | Op.del k => s.Delete k

/-- Apply a whole session. -/
def applyOps (durToString : Int → String) (s : Store) (ops : List Op) : Store :=
  ops.foldl (applyOp durToString) s

/-- The fresh store produced by `store.New` over an empty AOF file. -/
def initStore : Store :=
  { items := [], aofEnabled := true, isLoading := false, aofLog := [] }

/-- Concrete stand-in for `time.ParseDuration` used by witnesses: only the
token `5s` parses (to the duration 5). -/
def pdSample : String → Option Int := fun s => if s = "5s" then some 5 else none

/-- Concrete stand-in for `time.Duration.String` used by witnesses: renders
the duration 5 as `5s`. -/
def dtsSample : Int → String := fun d => if d = 5 then ("5s") else ("1ns")

/-! ## Map lemmas -/

theorem findItem_setItem (l : List (String × Item)) (k k' : String) (it : Item) :
    findItem (setItem l k it) k' = if k' = k then some it else findItem l k' := by
  induction l with
  | nil =>
    by_cases h : k' = k
    · simp [setItem, findItem, h]
    · simp [setItem, findItem, h, Ne.symm h]
  | cons p rest ih =>
    obtain ⟨a, b⟩ := p
    by_cases hak : a = k
    · subst hak
      by_cases h : k' = a
      · simp [setItem, findItem, h]
      · simp [setItem, findItem, h, Ne.symm h]
    · by_cases h : a = k'
      · subst h
        simp [setItem, findItem, hak, fun hh : a = k => hak hh]
      · simp [setItem, findItem, hak, h, fun hh : k' = a => h hh.symm, ih]

theorem findItem_delItem (l : List (String × Item)) (k k' : String) :
    findItem (delItem l k) k' = if k' = k then none else findItem l k' := by
  induction l with
  | nil =>
    by_cases h : k' = k
    · simp [delItem, findItem, h]
    · simp [delItem, findItem, h]
  | cons p rest ih =>
    obtain ⟨a, b⟩ := p
    by_cases hak : a = k
    · subst hak
      by_cases h : k' = a
      · subst h
        simp [delItem, ih]
      · simp [delItem, ih, h, findItem]
        rw [if_neg (fun hh : a = k' => h hh.symm)]
    · by_cases h : a = k'
      · subst h
        simp [delItem, findItem, hak, fun hh : a = k => hak hh]
      · simp [delItem, findItem, hak, h, fun hh : k' = a => h hh.symm, ih]

theorem delItem_of_absent (l : List (String × Item)) (k : String)
    (h : findItem l k = none) : delItem l k = l := by
  induction l with
  | nil => rfl
  | cons p rest ih =>
    obtain ⟨a, b⟩ := p
    by_cases hak : a = k
    · simp [findItem, hak] at h
    · simp only [findItem, if_neg hak] at h
      simp [delItem, hak, ih h]

theorem findItem_eq_none_of_not_mem (l : List (String × Item)) (k : String)
    (h : k ∉ l.map Prod.fst) : findItem l k = none := by
  induction l with
  | nil => rfl
  | cons p rest ih =>
    obtain ⟨a, b⟩ := p
    simp only [List.map_cons, List.mem_cons, not_or] at h
    simp only [findItem]
    rw [if_neg (fun hh : a = k => h.1 hh.symm)]
    exact ih h.2

theorem findItem_filter_of_pos (l : List (String × Item)) (p : Item → Bool)
    (k : String) (it : Item) (hf : findItem l k = some it) (hp : p it = true) :
    findItem (l.filter fun q => p q.2) k = some it := by
  induction l with
  | nil => simp [findItem] at hf
  | cons q rest ih =>
    obtain ⟨a, b⟩ := q
    simp only [findItem] at hf
    by_cases hak : a = k
    · rw [if_pos hak] at hf
      obtain rfl : b = it := Option.some.inj hf
      simp [List.filter_cons, hp, findItem, hak]
    · rw [if_neg hak] at hf
      by_cases hb : p b = true
      · simp [List.filter_cons, hb, findItem, hak, ih hf]
      · simp [List.filter_cons, hb, ih hf]

theorem findItem_filter (l : List (String × Item)) (p : Item → Bool)
    (k : String) (hnd : (l.map Prod.fst).Nodup) :
    findItem (l.filter fun q => p q.2) k
      = (findItem l k).bind fun it => if p it then some it else none := by
  induction l with
  | nil => simp [findItem]
  | cons q rest ih =>
    obtain ⟨a, b⟩ := q
    simp only [List.map_cons, List.nodup_cons] at hnd
    obtain ⟨hna, hnd'⟩ := hnd
    by_cases hak : a = k
    · subst hak
      have hrest : findItem rest a = none :=
        findItem_eq_none_of_not_mem rest a hna
      by_cases hb : p b = true
      · simp [List.filter_cons, hb, findItem]
      · have hfil : findItem (rest.filter fun q => p q.2) a = none := by
          apply findItem_eq_none_of_not_mem
          intro hmem
          apply hna
          rcases List.mem_map.mp hmem with ⟨q, hq, rfl⟩
          exact List.mem_map.mpr ⟨q, List.mem_of_mem_filter hq, rfl⟩
        simp [List.filter_cons, hb, findItem, hfil]
    · by_cases hb : p b = true
      · simp [List.filter_cons, hb, findItem, hak, ih hnd']
      · simp [List.filter_cons, hb, findItem, hak, ih hnd']

/-! ## Transition lemmas for the store operations -/

theorem recordCommand_items (s : Store) (parts : List String) :
    (recordCommand s parts).items = s.items := by
  unfold recordCommand
  by_cases h1 : s.aofEnabled = false
  · rw [if_pos h1]
  · rw [if_neg h1]
    by_cases h2 : s.isLoading = true
    · rw [if_pos h2]
    · rw [if_neg h2]

theorem recordCommand_aofEnabled (s : Store) (parts : List String) :
    (recordCommand s parts).aofEnabled = s.aofEnabled := by
  unfold recordCommand
  by_cases h1 : s.aofEnabled = false
  · rw [if_pos h1]
  · rw [if_neg h1]
    by_cases h2 : s.isLoading = true
    · rw [if_pos h2]
    · rw [if_neg h2]

theorem recordCommand_isLoading (s : Store) (parts : List String) :
    (recordCommand s parts).isLoading = s.isLoading := by
  unfold recordCommand
  by_cases h1 : s.aofEnabled = false
  · rw [if_pos h1]
  · rw [if_neg h1]
    by_cases h2 : s.isLoading = true
    · rw [if_pos h2]
    · rw [if_neg h2]

theorem recordCommand_log_live (s : Store) (parts : List String)
    (hen : s.aofEnabled = true) (hld : s.isLoading = false) :
    (recordCommand s parts).aofLog = s.aofLog ++ [joinParts parts] := by
  unfold recordCommand
  rw [if_neg (by simp [hen]), if_neg (by simp [hld])]

theorem recordCommand_log_loading (s : Store) (parts : List String)
    (hld : s.isLoading = true) :
    (recordCommand s parts).aofLog = s.aofLog := by
  unfold recordCommand
  by_cases h1 : s.aofEnabled = false
  · rw [if_pos h1]
  · rw [if_neg h1, if_pos hld]

theorem Set_items (s : Store) (k v : String) (ttl now : Int)
    (dts : Int → String) :
    (s.Set k v ttl now dts).items
      = setItem s.items k ⟨v, if ttl > 0 then some (now + ttl) else none⟩ := by
  unfold Store.Set
  rw [recordCommand_items]

theorem Delete_items (s : Store) (k : String) :
    (s.Delete k).items = delItem s.items k := by
  unfold Store.Delete
  rw [recordCommand_items]

/-! ## Claim C1 — Delete on an absent key -/

/-- C1 counterexample: on a fresh persistence-enabled store the key `k` is
absent, yet `Delete("k")` appends the log command `DELETE k` to the empty
log — refuting "Delete on an absent key … appends no log command". The map
itself is unchanged. -/
theorem C1_counterexample :
    findItem initStore.items ("k") = none ∧
    (initStore.Delete ("k")).items = initStore.items ∧
    initStore.aofLog = [] ∧
    (initStore.Delete ("k")).aofLog = ["DELETE k"] := by
  refine ⟨rfl, rfl, rfl, ?_⟩
  decide

/-- C1 (amended): outside replay mode, `Delete` on a key that is physically
absent from the map leaves the map unchanged but still appends a
`DELETE key` log command — the append is unconditional, there is no
presence check; `Set` likewise always appends a `SET` command, even when the
key did not previously exist. -/
theorem C1_amended (s : Store) (k v : String) (ttl now : Int)
    (dts : Int → String) (hen : s.aofEnabled = true) (hld : s.isLoading = false)
    (habs : findItem s.items k = none) :
    (s.Delete k).items = s.items ∧
    (s.Delete k).aofLog = s.aofLog ++ [joinParts ["DELETE", k]] ∧
    (s.Set k v ttl now dts).aofLog
      = s.aofLog ++
        [joinParts (["SET", k, v] ++ if ttl > 0 then [dts ttl] else [])] := by
  refine ⟨?_, ?_, ?_⟩
  · simp [Store.Delete, recordCommand, hen, hld, delItem_of_absent s.items k habs]
  · simp [Store.Delete, recordCommand, hen, hld]
  · simp [Store.Set, recordCommand, hen, hld]

/-- C1 witness: the amended statement at a concrete input. -/
theorem C1_witness :
    (initStore.aofEnabled = true ∧ initStore.isLoading = false ∧
      findItem initStore.items ("q") = none) ∧
    ((initStore.Delete ("q")).items = initStore.items ∧
     (initStore.Delete ("q")).aofLog
        = initStore.aofLog ++ [joinParts ["DELETE", "q"]] ∧
     (initStore.Set ("q") ("w") 0 3 dtsSample).aofLog
        = initStore.aofLog ++
          [joinParts (["SET", "q", "w"] ++ if (0 : Int) > 0 then [dtsSample 0] else [])]) :=
  ⟨⟨rfl, rfl, rfl⟩, C1_amended initStore ("q") ("w") 0 3 dtsSample rfl rfl rfl⟩

/-! ## Claim C5 — TTL boundary semantics of Get -/

/-- C5 counterexample: `Set("k","v",5)` at instant 0 gives expiration 5, and
`Get("k")` at the instant `now + ttl = 5` itself still returns `(v, true)` —
the code's check `time.Now().After(exp)` is strict, refuting "(_, false) at
the instant now+ttl". -/
theorem C5_counterexample :
    (initStore.Set ("k") ("v") 5 0 dtsSample).Get ("k") 5 = some ("v") := by
  decide

/-- C5 (amended): for `ttl > 0`, after `Set(k,v,ttl)` at instant `now` the
lazy check alone gives `Get(k) = (v, true)` at every instant up to and
including `now + ttl`, and `(_, false)` strictly after `now + ttl`. -/
theorem C5_amended (s : Store) (k v : String) (ttl now t : Int)
    (dts : Int → String) (httl : 0 < ttl) :
    (t ≤ now + ttl → (s.Set k v ttl now dts).Get k t = some v) ∧
    (now + ttl < t → (s.Set k v ttl now dts).Get k t = none) := by
  have hfind :
      findItem (s.Set k v ttl now dts).items k
        = some ⟨v, some (now + ttl)⟩ := by
    rw [Set_items, findItem_setItem, if_pos rfl, if_pos httl]
  constructor
  · intro hle
    simp [Store.Get, hfind, not_lt.mpr hle]
  · intro hlt
    simp [Store.Get, hfind, hlt]

/-- C5 witness: the amended statement at a concrete input. -/
theorem C5_witness :
    ((0 : Int) < 5) ∧
    (((5 : Int) ≤ 0 + 5 → (initStore.Set ("k") ("v") 5 0 dtsSample).Get ("k") 5 = some ("v")) ∧
     ((0 : Int) + 5 < 5 → (initStore.Set ("k") ("v") 5 0 dtsSample).Get ("k") 5 = none)) :=
  ⟨by decide, C5_amended initStore ("k") ("v") 5 0 5 dtsSample (by decide)⟩

/-! ## Claim C6 — DeleteExpired boundary semantics -/

/-- C6 counterexample: an entry whose expiration equals the sweep timestamp
is NOT removed — `DeleteExpired` at instant 5 keeps the entry expiring at 5,
refuting "removes exactly the entries whose expiration ≤ t". -/
theorem C6_counterexample :
    ((initStore.Set ("k") ("v") 5 0 dtsSample).DeleteExpired 5).items
      = [("k", ⟨"v", some 5⟩)] := by
  decide

/-- C6 (amended): `DeleteExpired` at sweep instant `t` removes exactly the
entries whose expiration is strictly before `t` (`time.After` is strict);
entries expiring at `t` itself, later, or without expiration are kept
untouched (stated per key, over stores with the Go map's key uniqueness). -/
theorem C6_amended (s : Store) (t : Int) (k : String)
    (hnd : (s.items.map Prod.fst).Nodup) :
    findItem (s.DeleteExpired t).items k
      = (findItem s.items k).bind fun it =>
          match it.expiration with
          | some e => if t > e then none else some it
          | none => some it := by
  have := findItem_filter s.items
    (fun it => match it.expiration with
      | some e => !decide (t > e)
      | none => true) k hnd
  simp only [Store.DeleteExpired]
  rw [this]
  cases hf : findItem s.items k with
  | none => rfl
  | some it =>
    cases he : it.expiration with
    | none => simp [he]
    | some e =>
      by_cases hlt : t > e <;> simp [he, hlt]

/-- A store with one entry expired before instant 5, one expiring exactly at
5, and one without expiration. -/
def sweepSample : Store :=
  { items := [("a", ⟨"v1", some 3⟩), ("b", ⟨"v2", some 5⟩), ("c", ⟨"v3", none⟩)],
    aofEnabled := false, isLoading := false, aofLog := [] }

/-- C6 witness: the amended statement at a concrete input (an entry expiring
before the sweep, one at the sweep instant, one without expiration). -/
theorem C6_witness :
    (((sweepSample.items.map Prod.fst).Nodup) ∧
      findItem (sweepSample.DeleteExpired 5).items ("a")
        = (findItem sweepSample.items ("a")).bind fun it =>
            match it.expiration with
            | some e => if (5 : Int) > e then none else some it
            | none => some it) ∧
    (sweepSample.DeleteExpired 5).items
      = [("b", ⟨"v2", some 5⟩), ("c", ⟨"v3", none⟩)] :=
  ⟨⟨by decide, C6_amended sweepSample 5 ("a") (by decide)⟩, by decide⟩

/-! ## Claim C7 — ttl ≤ 0 means no expiration, ever -/

/-- C7: after `Set(k,v,ttl)` with `ttl ≤ 0` the stored entry has no
expiration: `Get(k)` returns `(v, true)` at every instant, `Exists` agrees,
`DeleteExpired` at any sweep instant leaves the entry in place, and only an
explicit `Delete(k)` makes `Get` return `(_, false)`. -/
theorem C7_theorem (s : Store) (k v : String) (ttl now : Int)
    (dts : Int → String) (httl : ttl ≤ 0) :
    (∀ t, (s.Set k v ttl now dts).Get k t = some v) ∧
    (∀ t, (s.Set k v ttl now dts).Exists k t = true) ∧
    (∀ t, findItem ((s.Set k v ttl now dts).DeleteExpired t).items k
            = some ⟨v, none⟩) ∧
    (∀ t, ((s.Set k v ttl now dts).Delete k).Get k t = none) := by
  have hfind :
      findItem (s.Set k v ttl now dts).items k = some ⟨v, none⟩ := by
    rw [Set_items, findItem_setItem, if_pos rfl, if_neg (not_lt.mpr httl)]
  refine ⟨?_, ?_, ?_, ?_⟩
  · intro t
    simp [Store.Get, hfind]
  · intro t
    simp [Store.Exists, hfind]
  · intro t
    simp only [Store.DeleteExpired]
    exact findItem_filter_of_pos _
      (fun it => match it.expiration with
        | some e => !decide (t > e)
        | none => true) k ⟨v, none⟩ hfind rfl
  · intro t
    have : findItem ((s.Set k v ttl now dts).Delete k).items k = none := by
      rw [Delete_items, findItem_delItem, if_pos rfl]
    simp [Store.Get, this]

/-- C7 witness: the theorem at a concrete input, with its conclusion
evaluated at a sample instant. -/
theorem C7_witness :
    ((0 : Int) ≤ 0) ∧
    ((initStore.Set ("k") ("v") 0 2 dtsSample).Get ("k") 999 = some ("v") ∧
     findItem ((initStore.Set ("k") ("v") 0 2 dtsSample).DeleteExpired 999).items ("k")
        = some ⟨"v", none⟩) := by
  have h := C7_theorem initStore ("k") ("v") 0 2 dtsSample (by decide)
  exact ⟨by decide, h.1 999, h.2.2.1 999⟩

/-! ## Claim C8 — lenient trailing-duration fallback in the wire SET -/

/-- C8: a wire `SET` command with at least three tokens whose trailing token
does not parse as a duration is not rejected: the whole tail after the key
becomes the value, the ttl is treated as absent (0, so no expiration), and
the response is `OK`. -/
theorem C8_theorem (pd : String → Option Int) (dts : Int → String)
    (now : Int) (s : Store) (cmd key : String) (rest : List String)
    (hfields : fields cmd = "SET" :: key :: rest) (hne : rest ≠ [])
    (hparse : pd (rest.getLastD ("")) = none) :
    handleCommand pd dts now s cmd = ("OK", s.Set key (joinParts rest) 0 now dts) := by
  have hup : toUpperStr ("SET") = "SET" := by decide
  cases rest with
  | nil => exact absurd rfl hne
  | cons r0 rest' =>
    cases rest' with
    | nil =>
      simp [handleCommand, hfields, hup, joinParts]
    | cons r1 rest'' =>
      have hlast :
          ("SET" :: key :: r0 :: r1 :: rest'').getLastD ("")
            = (r0 :: r1 :: rest'').getLastD ("") := by
        simp [List.getLastD_eq_getLast?, List.getLast?_cons_cons]
      have h3 : ¬ ("SET" :: key :: r0 :: r1 :: rest'').length < 3 := by
        simp only [List.length_cons]
        omega
      have h4 : ("SET" :: key :: r0 :: r1 :: rest'').length > 3 := by
        simp only [List.length_cons]
        omega
      simp [handleCommand, hfields, hup, h3, h4, hlast, hparse, joinParts]
      rw [if_neg (by omega)]
      have hl2 : pd ((r1 :: rest'').getLast?.getD ("")) = none := by
        rw [← hparse]
        simp [List.getLastD_eq_getLast?, List.getLast?_cons_cons]
      rw [hl2]

/-- C8 witness: the theorem at a concrete command whose trailing token `zz`
fails to parse. -/
theorem C8_witness :
    (fields ("SET k v zz") = "SET" :: "k" :: ["v", "zz"] ∧
      (["v", "zz"] : List String) ≠ [] ∧
      pdSample ((["v", "zz"] : List String).getLastD ("")) = none) ∧
    handleCommand pdSample dtsSample 0 initStore ("SET k v zz")
      = ("OK", initStore.Set ("k") ("v zz") 0 0 dtsSample) :=
  ⟨⟨by decide, by decide, by decide⟩,
    C8_theorem pdSample dtsSample 0 initStore ("SET k v zz") ("k") ["v", "zz"]
      (by decide) (by decide) (by decide)⟩

/-! ## Claim C10 — GET cannot distinguish a stored "NIL" from absence -/

/-- C10: in the reachable state produced by the wire command `SET k NIL`,
the key `k` is present (`Get` returns the stored string `NIL`), yet the wire
reply to `GET k` is the literal `NIL` — byte-identical to the reply for the
absent key `other`, so a client cannot distinguish the two. -/
theorem C10_theorem :
    (handleCommand pdSample dtsSample 0 initStore ("SET k NIL")).1 = "OK" ∧
    ((handleCommand pdSample dtsSample 0 initStore ("SET k NIL")).2.Get ("k") 0
      = some ("NIL")) ∧
    (handleCommand pdSample dtsSample 0
        (handleCommand pdSample dtsSample 0 initStore ("SET k NIL")).2 ("GET k")).1
      = "NIL" ∧
    findItem (handleCommand pdSample dtsSample 0 initStore ("SET k NIL")).2.items
        ("other") = none ∧
    (handleCommand pdSample dtsSample 0
        (handleCommand pdSample dtsSample 0 initStore ("SET k NIL")).2 ("GET other")).1
      = "NIL" := by
  refine ⟨?_, ?_, ?_, ?_, ?_⟩ <;> decide

/-! ## Character-level facts about `fields` and `trimSpace` -/

theorem fieldsCore_ne_nil (cs : List Char) (acc : List Char) (h : acc ≠ []) :
    fieldsCore acc cs ≠ [] := by
  induction cs generalizing acc with
  | nil =>
    simp [fieldsCore, h]
  | cons c cs ih =>
    by_cases hw : c.isWhitespace
    · simp [fieldsCore, hw, h]
    · simpa [fieldsCore, hw] using ih (c :: acc) (by simp)

theorem all_ws_of_fieldsCore_nil (cs : List Char)
    (h : fieldsCore [] cs = []) : ∀ c ∈ cs, c.isWhitespace = true := by
  induction cs with
  | nil => simp
  | cons c cs ih =>
    by_cases hw : c.isWhitespace
    · simp only [fieldsCore, hw, if_pos, List.isEmpty_nil, if_true] at h
      intro d hd
      rcases List.mem_cons.mp hd with rfl | hd
      · exact hw
      · exact ih h d hd
    · simp only [fieldsCore, hw, if_neg, List.isEmpty_nil] at h
      exact absurd h (fieldsCore_ne_nil cs [c] (by simp))

theorem dropWhile_head_false {α : Type} (p : α → Bool) (l : List α)
    (c : α) (cs : List α) (h : l.dropWhile p = c :: cs) : p c = false := by
  induction l with
  | nil => simp [List.dropWhile] at h
  | cons a l ih =>
    by_cases hp : p a = true
    · rw [List.dropWhile_cons_of_pos hp] at h
      exact ih h
    · rw [List.dropWhile_cons_of_neg hp] at h
      obtain rfl : a = c := (List.cons.inj h).1
      simpa using hp

theorem trimChars_nil_of_all_ws (cs : List Char)
    (h : ∀ c ∈ trimChars cs, c.isWhitespace = true) : trimChars cs = [] := by
  unfold trimChars at h ⊢
  cases hd : (cs.dropWhile Char.isWhitespace).reverse.dropWhile Char.isWhitespace with
  | nil => simp [hd]
  | cons c cs' =>
    have hc : c.isWhitespace = false :=
      dropWhile_head_false Char.isWhitespace _ c cs' hd
    have hmem : c ∈ ((cs.dropWhile Char.isWhitespace).reverse.dropWhile
        Char.isWhitespace).reverse := by
      rw [hd]
      simp
    have hcw : c.isWhitespace = true := h c hmem
    rw [hcw] at hc
    cases hc

theorem fields_of_trim_ne_nil (line : String) (h : trimSpace line ≠ "") :
    fields (trimSpace line) ≠ [] := by
  intro hf
  apply h
  have hall : ∀ c ∈ trimChars line.data, c.isWhitespace = true :=
    all_ws_of_fieldsCore_nil (trimChars line.data) hf
  have : trimChars line.data = [] := trimChars_nil_of_all_ws _ hall
  show String.mk (trimChars line.data) = ""
  rw [this]

/-! ## Grammar violations: integrity check vs replay handler -/

/-- One-line minimum-argument grammar check, as the claims state it (a `SET`
with fewer than 3 tokens, a `DELETE` with other than 2 tokens, or an unknown
command word; a line with a single token always falls in one of these
classes, so this is exactly the vocabulary `checkAOFIntegrity` enforces). -/
def violatesGrammar (line : String) : Bool :=
  match fields (trimSpace line) with
  | [] => false
  | w :: _ =>
    let cmd := toUpperStr w
    if cmd = "SET" then decide ((fields (trimSpace line)).length < 3)
    else if cmd = "DELETE" then decide ((fields (trimSpace line)).length ≠ 2)
    else true

theorem trim_empty_fields_nil (line : String) (h : trimSpace line = "") :
    fields (trimSpace line) = [] := by
  rw [h]
  rfl

theorem violatesGrammar_of_trim_empty (line : String)
    (h : trimSpace line = "") : violatesGrammar line = false := by
  unfold violatesGrammar
  split
  · rfl
  · next w ws hp =>
    rw [trim_empty_fields_nil line h] at hp
    cases hp

theorem checkAOFIntegrity_cons_skip (line : String) (rest : List String)
    (h : trimSpace line = "") :
    checkAOFIntegrity (line :: rest) = checkAOFIntegrity rest := by
  simp [checkAOFIntegrity, h]

theorem checkAOFIntegrity_cons_ok (line : String) (rest : List String)
    (hne : trimSpace line ≠ "") (hok : violatesGrammar line = false) :
    checkAOFIntegrity (line :: rest) = checkAOFIntegrity rest := by
  unfold violatesGrammar at hok
  simp only [checkAOFIntegrity]
  rw [if_neg hne]
  split at hok
  · next hp => exact absurd hp (fields_of_trim_ne_nil line hne)
  · next w ws hp =>
    rw [hp]
    simp only [List.headI, List.length_cons]
    by_cases hset : toUpperStr w = "SET"
    · rw [if_pos hset] at hok
      simp only [hp, List.length_cons, decide_eq_false_iff_not, not_lt] at hok
      rw [if_neg (by omega), if_pos hset, if_neg (by omega)]
    · rw [if_neg hset] at hok
      by_cases hdel : toUpperStr w = "DELETE"
      · rw [if_pos hdel] at hok
        simp only [hp, List.length_cons, decide_eq_false_iff_not, not_not] at hok
        rw [if_neg (by omega), if_neg hset, if_pos hdel, if_neg (by omega)]
      · rw [if_neg hdel] at hok
        cases hok

theorem checkAOFIntegrity_cons_err (line : String) (rest : List String)
    (hviol : violatesGrammar line = true) :
    ∃ e, checkAOFIntegrity (line :: rest) = Except.error e := by
  have hne : trimSpace line ≠ "" := by
    intro h
    rw [violatesGrammar_of_trim_empty line h] at hviol
    cases hviol
  unfold violatesGrammar at hviol
  simp only [checkAOFIntegrity]
  rw [if_neg hne]
  split at hviol
  · cases hviol
  · next w ws hp =>
    rw [hp]
    simp only [List.headI, List.length_cons]
    by_cases hlen : ws.length + 1 < 2
    · exact ⟨_, by rw [if_pos hlen]⟩
    · rw [if_neg hlen]
      by_cases hset : toUpperStr w = "SET"
      · rw [if_pos hset] at hviol
        simp only [hp, List.length_cons, decide_eq_true_eq] at hviol
        exact ⟨_, by rw [if_pos hset, if_pos hviol]⟩
      · rw [if_neg hset] at hviol
        by_cases hdel : toUpperStr w = "DELETE"
        · rw [if_pos hdel] at hviol
          simp only [hp, List.length_cons, decide_eq_true_eq] at hviol
          exact ⟨_, by rw [if_neg hset, if_pos hdel, if_pos hviol]⟩
        · exact ⟨_, by rw [if_neg hset, if_neg hdel]⟩

theorem replayHandler_ok (pd : String → Option Int) (dts : Int → String)
    (now : Int) (s : Store) (line : String)
    (hok : violatesGrammar line = false) :
    ∃ s', replayHandler pd dts now s (trimSpace line) = Except.ok s' := by
  unfold violatesGrammar at hok
  split at hok
  · next hp => exact ⟨s, by simp [replayHandler, hp]⟩
  · next w ws hp =>
    simp only [replayHandler, hp, List.headI, List.length_cons]
    by_cases hset : toUpperStr w = "SET"
    · rw [if_pos hset] at hok
      simp only [hp, List.length_cons, decide_eq_false_iff_not, not_lt] at hok
      rw [if_neg (by omega), if_pos hset, if_neg (by omega)]
      by_cases h4 : ws.length + 1 > 3
      · rw [if_pos h4]
        cases hpd : pd ((w :: ws).getLastD ("")) with
        | none => exact ⟨_, rfl⟩
        | some d => exact ⟨_, rfl⟩
      · rw [if_neg h4]
        exact ⟨_, rfl⟩
    · rw [if_neg hset] at hok
      by_cases hdel : toUpperStr w = "DELETE"
      · rw [if_pos hdel] at hok
        simp only [hp, List.length_cons, decide_eq_false_iff_not, not_not] at hok
        rw [if_neg (by omega), if_neg hset, if_pos hdel, if_neg (by omega)]
        exact ⟨_, rfl⟩
      · rw [if_neg hdel] at hok
        cases hok

theorem replayHandler_err (pd : String → Option Int) (dts : Int → String)
    (now : Int) (s : Store) (line : String)
    (hviol : violatesGrammar line = true) :
    ∃ e, replayHandler pd dts now s (trimSpace line) = Except.error e := by
  unfold violatesGrammar at hviol
  split at hviol
  · cases hviol
  · next w ws hp =>
    simp only [replayHandler, hp, List.headI, List.length_cons]
    rw [if_neg (by omega)]
    by_cases hset : toUpperStr w = "SET"
    · rw [if_pos hset] at hviol
      simp only [hp, List.length_cons, decide_eq_true_eq] at hviol
      rw [if_pos hset, if_pos hviol]
      exact ⟨_, rfl⟩
    · rw [if_neg hset] at hviol
      by_cases hdel : toUpperStr w = "DELETE"
      · rw [if_pos hdel] at hviol
        simp only [hp, List.length_cons, decide_eq_true_eq] at hviol
        rw [if_neg hset, if_pos hdel, if_pos hviol]
        exact ⟨_, rfl⟩
      · rw [if_neg hset, if_neg hdel]
        exact ⟨_, rfl⟩

theorem loadLines_ok (pd : String → Option Int) (dts : Int → String)
    (now : Int) (lines : List String)
    (hint : checkAOFIntegrity lines = Except.ok ()) :
    ∀ s, ∃ s', loadLines (replayHandler pd dts now) s lines = Except.ok s' := by
  induction lines with
  | nil =>
    intro s
    exact ⟨s, rfl⟩
  | cons line rest ih =>
    intro s
    by_cases hemp : trimSpace line = ""
    · rw [checkAOFIntegrity_cons_skip line rest hemp] at hint
      obtain ⟨s', hs'⟩ := ih hint s
      exact ⟨s', by simp only [loadLines]; rw [if_pos hemp]; exact hs'⟩
    · by_cases hviol : violatesGrammar line = true
      · obtain ⟨e, he⟩ := checkAOFIntegrity_cons_err line rest hviol
        rw [he] at hint
        cases hint
      · have hok : violatesGrammar line = false := by
          simpa using hviol
        rw [checkAOFIntegrity_cons_ok line rest hemp hok] at hint
        obtain ⟨s1, hs1⟩ := replayHandler_ok pd dts now s line hok
        obtain ⟨s', hs'⟩ := ih hint s1
        refine ⟨s', ?_⟩
        simp only [loadLines]
        rw [if_neg hemp, hs1]
        exact hs'

/-! ## Claim C3 — malformed lines during replay -/

/-- C3 counterexample: a log with a malformed second line (`FOO bar`) makes
`AOF.Load` return an error instead of skipping the line, so the well-formed
third line is never applied — refuting "logged and skipped … Load returns
success". -/
theorem C3_counterexample :
    (AOF.Load (replayHandler pdSample dtsSample 0)
        ["SET a 1", "FOO bar", "SET b 2"] initStore).isOk = false := by
  decide

/-- C3 (amended): a malformed or unrecognized line is never skipped during
replay — it makes `Load` fail up front: `Load` re-runs the integrity check
before replaying, so it succeeds exactly when the integrity check passes, in
which case no line is malformed, the per-line handler never errors, and
every line is applied; when some line is malformed, `Load` returns an error
before applying anything. -/
theorem C3_amended (pd : String → Option Int) (dts : Int → String)
    (now : Int) (lines : List String) (s : Store) :
    (AOF.Load (replayHandler pd dts now) lines s).isOk
      = (checkAOFIntegrity lines).isOk := by
  unfold AOF.Load
  cases hint : checkAOFIntegrity lines with
  | error e => rfl
  | ok u =>
    cases u
    obtain ⟨s', hs'⟩ :=
      loadLines_ok pd dts now lines hint { s with isLoading := true }
    rw [hs']
    rfl

/-! ## Claim C4 — grammar violations are fatal at construction -/

theorem integrity_err_of_viol (lines : List String)
    (h : ∃ l ∈ lines, violatesGrammar l = true) :
    ∃ e, checkAOFIntegrity lines = Except.error e := by
  induction lines with
  | nil => simp at h
  | cons line rest ih =>
    by_cases hv : violatesGrammar line = true
    · exact checkAOFIntegrity_cons_err line rest hv
    · have hr : ∃ l ∈ rest, violatesGrammar l = true := by
        rcases h with ⟨l, hl, hlv⟩
        rcases List.mem_cons.mp hl with rfl | hl
        · exact absurd hlv hv
        · exact ⟨l, hl, hlv⟩
      obtain ⟨e, he⟩ := ih hr
      by_cases hemp : trimSpace line = ""
      · exact ⟨e, by rw [checkAOFIntegrity_cons_skip line rest hemp, he]⟩
      · have hok : violatesGrammar line = false := by simpa using hv
        exact ⟨e, by rw [checkAOFIntegrity_cons_ok line rest hemp hok, he]⟩

/-- C4: a log containing at least one line that violates the
minimum-argument grammar (a `SET` with fewer than 3 tokens, a `DELETE` with
other than 2 tokens, or an unknown command word) makes store construction
fail at the pre-replay integrity check — `Store.New` returns the integrity
error and no store value, before any replayed command has touched a store. -/
theorem C4_theorem (pd : String → Option Int) (dts : Int → String)
    (lines : List String) (now : Int)
    (h : ∃ l ∈ lines, violatesGrammar l = true) :
    ∃ e, checkAOFIntegrity lines = Except.error e ∧
      Store.New pd dts true lines now
        = Except.error
            ("failed to initialize AOF: AOF file integrity check failed: " ++ e) := by
  obtain ⟨e, he⟩ := integrity_err_of_viol lines h
  refine ⟨e, he, ?_⟩
  unfold Store.New
  rw [if_neg (by simp), he]

/-- C4 witness: the theorem at the one-line log `SET a` (a `SET` with two
tokens). -/
theorem C4_witness :
    (∃ l ∈ (["SET a"] : List String), violatesGrammar l = true) ∧
    ∃ e, checkAOFIntegrity ["SET a"] = Except.error e ∧
      Store.New pdSample dtsSample true ["SET a"] 0
        = Except.error
            ("failed to initialize AOF: AOF file integrity check failed: " ++ e) :=
  ⟨⟨"SET a", by decide, by decide⟩,
    C4_theorem pdSample dtsSample ["SET a"] 0 ⟨"SET a", by decide, by decide⟩⟩

/-! ## Round-trip facts: `fields` inverts `joinParts` on token lists -/

theorem fieldsCore_scan (w : List Char) (acc rest : List Char)
    (hw : ∀ c ∈ w, c.isWhitespace = false) :
    fieldsCore acc (w ++ rest) = fieldsCore (w.reverse ++ acc) rest := by
  induction w generalizing acc with
  | nil => simp
  | cons c w ih =>
    have hc : c.isWhitespace = false := hw c (by simp)
    have hw' : ∀ d ∈ w, d.isWhitespace = false :=
      fun d hd => hw d (by simp [hd])
    show fieldsCore acc ((c :: w) ++ rest) = fieldsCore ((c :: w).reverse ++ acc) rest
    rw [List.cons_append,
      show fieldsCore acc (c :: (w ++ rest)) = fieldsCore (c :: acc) (w ++ rest) by
        simp [fieldsCore, hc],
      ih (c :: acc) hw',
      show (c :: w).reverse ++ acc = w.reverse ++ (c :: acc) by simp]

theorem fieldsCore_token_sep (w : List Char) (cs : List Char)
    (hne : w ≠ []) (hw : ∀ c ∈ w, c.isWhitespace = false) :
    fieldsCore [] (w ++ ' ' :: cs) = String.mk w :: fieldsCore [] cs := by
  rw [fieldsCore_scan w [] (' ' :: cs) hw]
  have : (' ').isWhitespace = true := rfl
  simp [fieldsCore, this, List.isEmpty_eq_true, hne]

theorem fieldsCore_token_end (w : List Char)
    (hne : w ≠ []) (hw : ∀ c ∈ w, c.isWhitespace = false) :
    fieldsCore [] w = [String.mk w] := by
  have := fieldsCore_scan w [] [] hw
  rw [List.append_nil] at this
  rw [this]
  simp [fieldsCore, List.isEmpty_eq_true, hne]

theorem fields_joinParts (ts : List String) (hne : ts ≠ [])
    (htok : ∀ t ∈ ts, isToken t) : fields (joinParts ts) = ts := by
  induction ts with
  | nil => exact absurd rfl hne
  | cons t ts ih =>
    obtain ⟨htne, htws⟩ := htok t (by simp)
    cases ts with
    | nil =>
      show fieldsCore [] t.data = [t]
      rw [fieldsCore_token_end t.data htne htws]
    | cons t' ts' =>
      have hjoin : joinParts (t :: t' :: ts') = t ++ " " ++ joinParts (t' :: ts') := by
        rfl
      have hdata : (joinParts (t :: t' :: ts')).data
          = t.data ++ ' ' :: (joinParts (t' :: ts')).data := by
        rw [hjoin, String.data_append, String.data_append, List.append_assoc]
        rfl
      show fieldsCore [] (joinParts (t :: t' :: ts')).data = t :: t' :: ts'
      rw [hdata, fieldsCore_token_sep t.data _ htne htws]
      have := ih (by simp) (fun u hu => htok u (by simp [hu]))
      rw [show fieldsCore [] (joinParts (t' :: ts')).data
            = fields (joinParts (t' :: ts')) from rfl, this]

theorem fieldsCore_all_ws (t : List Char) (ht : ∀ c ∈ t, c.isWhitespace = true)
    (acc : List Char) : fieldsCore acc t = fieldsCore acc [] := by
  induction t generalizing acc with
  | nil => rfl
  | cons c t iht =>
    have hc : c.isWhitespace = true := ht c (by simp)
    have ht' : ∀ d ∈ t, d.isWhitespace = true := fun d hd => ht d (by simp [hd])
    have hnil : fieldsCore [] t = [] := by
      have := iht ht' []
      simpa [fieldsCore] using this
    by_cases hacc : acc.isEmpty = true
    · simp [fieldsCore, hc, hacc, hnil]
    · simp [fieldsCore, hc, hacc, hnil]

theorem fieldsCore_append_all_ws (cs : List Char) (acc : List Char)
    (t : List Char) (ht : ∀ c ∈ t, c.isWhitespace = true) :
    fieldsCore acc (cs ++ t) = fieldsCore acc cs := by
  induction cs generalizing acc with
  | nil =>
    simpa using fieldsCore_all_ws t ht acc
  | cons c cs ih =>
    show fieldsCore acc (c :: (cs ++ t)) = fieldsCore acc (c :: cs)
    by_cases hc : c.isWhitespace = true
    · simp [fieldsCore, hc, ih]
    · have hc' : c.isWhitespace = false := by
        cases h : c.isWhitespace
        · rfl
        · exact absurd h hc
      simp [fieldsCore, hc', ih]

theorem fieldsCore_dropWhile_ws (cs : List Char) :
    fieldsCore [] (cs.dropWhile Char.isWhitespace) = fieldsCore [] cs := by
  induction cs with
  | nil => rfl
  | cons c cs ih =>
    by_cases hc : c.isWhitespace = true
    · rw [List.dropWhile_cons_of_pos hc, ih]
      simp [fieldsCore, hc]
    · rw [List.dropWhile_cons_of_neg (by simpa using hc)]

theorem fields_trimSpace (s : String) : fields (trimSpace s) = fields s := by
  show fieldsCore [] (trimChars s.data) = fieldsCore [] s.data
  unfold trimChars
  set front := s.data.dropWhile Char.isWhitespace with hfront
  have hdecomp :
      front = ((front.reverse.dropWhile Char.isWhitespace).reverse)
        ++ ((front.reverse.takeWhile Char.isWhitespace).reverse) := by
    calc front = front.reverse.reverse := by rw [List.reverse_reverse]
    _ = ((front.reverse.takeWhile Char.isWhitespace)
          ++ (front.reverse.dropWhile Char.isWhitespace)).reverse := by
        rw [List.takeWhile_append_dropWhile]
    _ = _ := by rw [List.reverse_append]
  have hws : ∀ c ∈ (front.reverse.takeWhile Char.isWhitespace).reverse,
      c.isWhitespace = true := by
    intro c hc
    rw [List.mem_reverse] at hc
    exact List.mem_takeWhile_imp hc
  calc fieldsCore [] ((front.reverse.dropWhile Char.isWhitespace).reverse)
      = fieldsCore []
          (((front.reverse.dropWhile Char.isWhitespace).reverse)
            ++ ((front.reverse.takeWhile Char.isWhitespace).reverse)) := by
        rw [fieldsCore_append_all_ws _ _ _ hws]
    _ = fieldsCore [] front := by rw [← hdecomp]
    _ = fieldsCore [] s.data := by rw [hfront, fieldsCore_dropWhile_ws]

/-! ## Replay simulation: the log of a session replays to the same state -/

/-- The observable shape of an entry modulo wall-clock expiration: its value
and whether it carries an expiration at all (the expiration instant itself is
recomputed from the replay wall clock). -/
def Item.shape (it : Item) : String × Bool := (it.value, it.expiration.isSome)

/-- Key order, values and expiration presence of the whole map. -/
def itemsShape (l : List (String × Item)) : List (String × String × Bool) :=
  l.map fun p => (p.1, p.2.shape)

/-- The log line `recordCommand` writes for one session operation. -/
def opLine (dts : Int → String) : Op → String
  | Op.set k v ttl _ =>
    joinParts (["SET", k, v] ++ if ttl > 0 then [dts ttl] else [])
  | Op.del k => joinParts ["DELETE", k]

/-- Round-trippable session operations: keys and values are single wire
tokens, and a positive ttl renders (via `Duration.String`) to a token that
`ParseDuration` maps back to the same duration. -/
def goodOp (pd : String → Option Int) (dts : Int → String) : Op → Prop
  | Op.set k v ttl _ => isToken k ∧ isToken v ∧
      (ttl > 0 → isToken (dts ttl) ∧ pd (dts ttl) = some ttl)
  | Op.del k => isToken k

/-- Replay executes every operation at the replay wall-clock instant. -/
def retime (now : Int) : Op → Op
  | Op.set k v ttl _ => Op.set k v ttl now
  | Op.del k => Op.del k

instance (pd : String → Option Int) (dts : Int → String) (op : Op) :
    Decidable (goodOp pd dts op) := by
  cases op with
  | set k v ttl now => unfold goodOp; infer_instance
  | del k => unfold goodOp; infer_instance

theorem applyOp_flags (dts : Int → String) (s : Store) (op : Op) :
    (applyOp dts s op).aofEnabled = s.aofEnabled ∧
    (applyOp dts s op).isLoading = s.isLoading := by
  cases op with
  | set k v ttl now =>
    exact ⟨recordCommand_aofEnabled _ _, recordCommand_isLoading _ _⟩
  | del k =>
    exact ⟨recordCommand_aofEnabled _ _, recordCommand_isLoading _ _⟩

theorem applyOp_log_live (dts : Int → String) (s : Store) (op : Op)
    (hen : s.aofEnabled = true) (hld : s.isLoading = false) :
    (applyOp dts s op).aofLog = s.aofLog ++ [opLine dts op] := by
  cases op with
  | set k v ttl now =>
    show (recordCommand _ _).aofLog = _
    rw [recordCommand_log_live
      { s with items :=
          setItem s.items k ⟨v, if ttl > 0 then some (now + ttl) else none⟩ }
      (["SET", k, v] ++ if ttl > 0 then [dts ttl] else []) hen hld]
    rfl
  | del k =>
    show (recordCommand _ _).aofLog = _
    rw [recordCommand_log_live { s with items := delItem s.items k }
      ["DELETE", k] hen hld]
    rfl

theorem applyOps_flags (dts : Int → String) (s : Store) (ops : List Op) :
    (applyOps dts s ops).aofEnabled = s.aofEnabled ∧
    (applyOps dts s ops).isLoading = s.isLoading := by
  induction ops generalizing s with
  | nil => exact ⟨rfl, rfl⟩
  | cons op ops ih =>
    have h := applyOp_flags dts s op
    have h2 := ih (applyOp dts s op)
    exact ⟨h2.1.trans h.1, h2.2.trans h.2⟩

theorem applyOps_log_live (dts : Int → String) (s : Store) (ops : List Op)
    (hen : s.aofEnabled = true) (hld : s.isLoading = false) :
    (applyOps dts s ops).aofLog = s.aofLog ++ ops.map (opLine dts) := by
  induction ops generalizing s with
  | nil => simp [applyOps]
  | cons op ops ih =>
    show (applyOps dts (applyOp dts s op) ops).aofLog = _
    rw [ih (applyOp dts s op) ((applyOp_flags dts s op).1.trans hen)
      ((applyOp_flags dts s op).2.trans hld),
      applyOp_log_live dts s op hen hld]
    simp

theorem itemsShape_setItem (a : List (String × Item)) (b : List (String × Item))
    (k : String) (it it' : Item) (h : itemsShape a = itemsShape b)
    (hsh : it.shape = it'.shape) :
    itemsShape (setItem a k it) = itemsShape (setItem b k it') := by
  induction a generalizing b with
  | nil =>
    cases b with
    | nil => simp [setItem, itemsShape, Item.shape] at hsh ⊢; exact hsh
    | cons q bs => simp [itemsShape] at h
  | cons p as ih =>
    cases b with
    | nil => simp [itemsShape] at h
    | cons q bs =>
      obtain ⟨a1, a2⟩ := p
      obtain ⟨b1, b2⟩ := q
      simp only [itemsShape, List.map_cons, List.cons.injEq, Prod.mk.injEq] at h
      obtain ⟨⟨hk, hsh2⟩, hrest⟩ := h
      subst hk
      by_cases hak : a1 = k
      · simp only [setItem, if_pos hak, itemsShape, List.map_cons,
          List.cons.injEq, Prod.mk.injEq]
        exact ⟨⟨trivial, hsh⟩, hrest⟩
      · simp only [setItem, if_neg hak, itemsShape, List.map_cons,
          List.cons.injEq, Prod.mk.injEq]
        exact ⟨⟨trivial, hsh2⟩, ih bs hrest⟩

theorem itemsShape_delItem (a : List (String × Item)) (b : List (String × Item))
    (k : String) (h : itemsShape a = itemsShape b) :
    itemsShape (delItem a k) = itemsShape (delItem b k) := by
  induction a generalizing b with
  | nil =>
    cases b with
    | nil => rfl
    | cons q bs => simp [itemsShape] at h
  | cons p as ih =>
    cases b with
    | nil => simp [itemsShape] at h
    | cons q bs =>
      obtain ⟨a1, a2⟩ := p
      obtain ⟨b1, b2⟩ := q
      simp only [itemsShape, List.map_cons, List.cons.injEq, Prod.mk.injEq] at h
      obtain ⟨⟨hk, hsh2⟩, hrest⟩ := h
      subst hk
      by_cases hak : a1 = k
      · simp only [delItem, if_pos hak]
        exact ih bs hrest
      · simp only [delItem, if_neg hak, itemsShape, List.map_cons,
          List.cons.injEq, Prod.mk.injEq]
        exact ⟨⟨trivial, hsh2⟩, ih bs hrest⟩

theorem Set_nonpos (s : Store) (k v : String) (ttl now : Int)
    (dts : Int → String) (h : ¬ ttl > 0) :
    s.Set k v ttl now dts = s.Set k v 0 now dts := by
  simp [Store.Set, h]

theorem replayHandler_del_line (pd : String → Option Int) (dts : Int → String)
    (now₁ : Int) (t : Store) (line k : String)
    (hfl : fields line = ["DELETE", k]) :
    replayHandler pd dts now₁ t line = Except.ok (t.Delete k) := by
  simp [replayHandler, hfl,
    show toUpperStr ("DELETE") = "DELETE" from by decide]

theorem replayHandler_set_line_nottl (pd : String → Option Int)
    (dts : Int → String) (now₁ : Int) (t : Store) (line k v : String)
    (hfl : fields line = ["SET", k, v]) :
    replayHandler pd dts now₁ t line = Except.ok (t.Set k v 0 now₁ dts) := by
  simp [replayHandler, hfl,
    show toUpperStr ("SET") = "SET" from by decide, joinParts]

theorem replayHandler_set_line_ttl (pd : String → Option Int)
    (dts : Int → String) (now₁ : Int) (t : Store) (line k v w : String)
    (ttl : Int) (hfl : fields line = ["SET", k, v, w])
    (hpd : pd w = some ttl) :
    replayHandler pd dts now₁ t line = Except.ok (t.Set k v ttl now₁ dts) := by
  simp [replayHandler, hfl,
    show toUpperStr ("SET") = "SET" from by decide, hpd, joinParts]

theorem fields_opLine_del (k : String) (hk : isToken k) :
    fields (trimSpace (joinParts ["DELETE", k])) = ["DELETE", k] := by
  rw [fields_trimSpace]
  refine fields_joinParts _ (by simp) ?_
  intro u hu
  simp at hu
  rcases hu with rfl | rfl
  · decide
  · exact hk

theorem fields_opLine_set_nottl (k v : String)
    (hk : isToken k) (hv : isToken v) :
    fields (trimSpace (joinParts ["SET", k, v])) = ["SET", k, v] := by
  rw [fields_trimSpace]
  refine fields_joinParts _ (by simp) ?_
  intro u hu
  simp at hu
  rcases hu with rfl | rfl | rfl
  · decide
  · exact hk
  · exact hv

theorem fields_opLine_set_ttl (k v w : String)
    (hk : isToken k) (hv : isToken v) (hw : isToken w) :
    fields (trimSpace (joinParts ["SET", k, v, w])) = ["SET", k, v, w] := by
  rw [fields_trimSpace]
  refine fields_joinParts _ (by simp) ?_
  intro u hu
  simp at hu
  rcases hu with rfl | rfl | rfl | rfl
  · decide
  · exact hk
  · exact hv
  · exact hw

theorem trim_ne_empty_of_fields (line : String) (tok : String)
    (toks : List String) (hfl : fields (trimSpace line) = tok :: toks) :
    trimSpace line ≠ "" := by
  intro h
  rw [h] at hfl
  cases hfl

theorem loadLines_opLines (pd : String → Option Int) (dts : Int → String)
    (now₁ : Int) (ops : List Op) (t : Store)
    (hgood : ∀ op ∈ ops, goodOp pd dts op) :
    loadLines (replayHandler pd dts now₁) t (ops.map (opLine dts))
      = Except.ok (applyOps dts t (ops.map (retime now₁))) := by
  induction ops generalizing t with
  | nil => rfl
  | cons op ops ih =>
    have hop := hgood op (by simp)
    have hrest : ∀ o ∈ ops, goodOp pd dts o := fun o ho => hgood o (by simp [ho])
    cases op with
    | del k =>
      have hk : isToken k := hop
      have hfl := fields_opLine_del k hk
      have hne := trim_ne_empty_of_fields _ _ _ hfl
      show loadLines _ t (joinParts ["DELETE", k] :: ops.map (opLine dts)) = _
      simp only [loadLines]
      rw [if_neg hne, replayHandler_del_line pd dts now₁ t _ k hfl]
      exact ih (t.Delete k) hrest
    | set k v ttl now =>
      obtain ⟨hk, hv, httlgood⟩ := hop
      by_cases httl : ttl > 0
      · obtain ⟨hw, hpd⟩ := httlgood httl
        have hline : opLine dts (Op.set k v ttl now)
            = joinParts ["SET", k, v, dts ttl] := by
          simp [opLine, httl]
        have hfl := fields_opLine_set_ttl k v (dts ttl) hk hv hw
        have hne := trim_ne_empty_of_fields _ _ _ hfl
        show loadLines _ t (opLine dts (Op.set k v ttl now) :: ops.map (opLine dts)) = _
        rw [hline]
        simp only [loadLines]
        rw [if_neg hne, replayHandler_set_line_ttl pd dts now₁ t _ k v (dts ttl)
          ttl hfl hpd]
        exact ih (t.Set k v ttl now₁ dts) hrest
      · have hline : opLine dts (Op.set k v ttl now)
            = joinParts ["SET", k, v] := by
          simp [opLine, httl]
        have hfl := fields_opLine_set_nottl k v hk hv
        have hne := trim_ne_empty_of_fields _ _ _ hfl
        show loadLines _ t (opLine dts (Op.set k v ttl now) :: ops.map (opLine dts)) = _
        rw [hline]
        simp only [loadLines]
        rw [if_neg hne, replayHandler_set_line_nottl pd dts now₁ t _ k v hfl]
        have hstep : applyOps dts t (Op.set k v ttl now₁ :: ops.map (retime now₁))
            = applyOps dts (t.Set k v 0 now₁ dts) (ops.map (retime now₁)) := by
          show applyOps dts (t.Set k v ttl now₁ dts) _ = _
          rw [Set_nonpos t k v ttl now₁ dts httl]
        show loadLines _ (t.Set k v 0 now₁ dts) (ops.map (opLine dts))
            = Except.ok (applyOps dts t ((Op.set k v ttl now :: ops).map (retime now₁)))
        rw [show (Op.set k v ttl now :: ops).map (retime now₁)
            = Op.set k v ttl now₁ :: ops.map (retime now₁) from rfl, hstep]
        exact ih (t.Set k v 0 now₁ dts) hrest

theorem violatesGrammar_opLine (pd : String → Option Int)
    (dts : Int → String) (op : Op) (hgood : goodOp pd dts op) :
    violatesGrammar (opLine dts op) = false := by
  cases op with
  | del k =>
    have hfl := fields_opLine_del k hgood
    simp [violatesGrammar, opLine, hfl,
      show toUpperStr ("DELETE") = "DELETE" from by decide]
  | set k v ttl now =>
    obtain ⟨hk, hv, httlgood⟩ := hgood
    by_cases httl : ttl > 0
    · obtain ⟨hw, hpd⟩ := httlgood httl
      have hline : opLine dts (Op.set k v ttl now)
          = joinParts ["SET", k, v, dts ttl] := by
        simp [opLine, httl]
      rw [hline]
      have hfl := fields_opLine_set_ttl k v (dts ttl) hk hv hw
      simp [violatesGrammar, hfl, show toUpperStr ("SET") = "SET" from by decide]
    · have hline : opLine dts (Op.set k v ttl now) = joinParts ["SET", k, v] := by
        simp [opLine, httl]
      rw [hline]
      have hfl := fields_opLine_set_nottl k v hk hv
      simp [violatesGrammar, hfl, show toUpperStr ("SET") = "SET" from by decide]

theorem trim_ne_empty_opLine (pd : String → Option Int) (dts : Int → String)
    (op : Op) (hgood : goodOp pd dts op) :
    trimSpace (opLine dts op) ≠ "" := by
  cases op with
  | del k => exact trim_ne_empty_of_fields _ _ _ (fields_opLine_del k hgood)
  | set k v ttl now =>
    obtain ⟨hk, hv, httlgood⟩ := hgood
    by_cases httl : ttl > 0
    · obtain ⟨hw, hpd⟩ := httlgood httl
      have hline : opLine dts (Op.set k v ttl now)
          = joinParts ["SET", k, v, dts ttl] := by
        simp [opLine, httl]
      rw [hline]
      exact trim_ne_empty_of_fields _ _ _ (fields_opLine_set_ttl k v (dts ttl) hk hv hw)
    · have hline : opLine dts (Op.set k v ttl now) = joinParts ["SET", k, v] := by
        simp [opLine, httl]
      rw [hline]
      exact trim_ne_empty_of_fields _ _ _ (fields_opLine_set_nottl k v hk hv)

theorem checkAOFIntegrity_opLines (pd : String → Option Int)
    (dts : Int → String) (ops : List Op)
    (hgood : ∀ op ∈ ops, goodOp pd dts op) :
    checkAOFIntegrity (ops.map (opLine dts)) = Except.ok () := by
  induction ops with
  | nil => rfl
  | cons op ops ih =>
    have hop := hgood op (by simp)
    have hrest : ∀ o ∈ ops, goodOp pd dts o := fun o ho => hgood o (by simp [ho])
    show checkAOFIntegrity (opLine dts op :: ops.map (opLine dts)) = Except.ok ()
    rw [checkAOFIntegrity_cons_ok _ _ (trim_ne_empty_opLine pd dts op hop)
      (violatesGrammar_opLine pd dts op hop)]
    exact ih hrest

theorem itemsShape_applyOps_retime (dts : Int → String) (now₁ : Int)
    (ops : List Op) (a : Store) (b : Store)
    (h : itemsShape a.items = itemsShape b.items) :
    itemsShape (applyOps dts a (ops.map (retime now₁))).items
      = itemsShape (applyOps dts b ops).items := by
  induction ops generalizing a b with
  | nil => exact h
  | cons op ops ih =>
    show itemsShape (applyOps dts (applyOp dts a (retime now₁ op)) (ops.map (retime now₁))).items
        = itemsShape (applyOps dts (applyOp dts b op) ops).items
    apply ih
    cases op with
    | set k v ttl now =>
      show itemsShape (applyOp dts a (Op.set k v ttl now₁)).items
          = itemsShape (applyOp dts b (Op.set k v ttl now)).items
      show itemsShape (Store.Set a k v ttl now₁ dts).items
          = itemsShape (Store.Set b k v ttl now dts).items
      rw [Set_items, Set_items]
      apply itemsShape_setItem _ _ _ _ _ h
      by_cases httl : ttl > 0 <;> simp [Item.shape, httl]
    | del k =>
      show itemsShape (Store.Delete a k).items = itemsShape (Store.Delete b k).items
      rw [Delete_items, Delete_items]
      exact itemsShape_delItem _ _ k h

/-! ## Claim C2 — close-then-reopen reconstruction -/

/-- C2 counterexample: the session `Set("k", "x 5s", 0)` (a value containing a
space whose last token parses as a duration) logs `SET k x 5s`; replay
re-splits that line and reinterprets `5s` as a ttl, so the reopened store
maps `k` to value `x` with an expiration while the pre-close store mapped
`k` to `x 5s` with none — `Get("k")` disagrees even before any expiration,
refuting the observable-equality claim. -/
theorem C2_counterexample :
    (applyOps dtsSample initStore [Op.set ("k") ("x 5s") 0 0]).Get ("k") 100
      = some ("x 5s") ∧
    (applyOps dtsSample initStore [Op.set ("k") ("x 5s") 0 0]).aofLog
      = ["SET k x 5s"] ∧
    (Store.New pdSample dtsSample true
        (applyOps dtsSample initStore [Op.set ("k") ("x 5s") 0 0]).aofLog 100).toOption.map
      (fun s2 => s2.Get ("k") 100) = some (some ("x")) := by
  refine ⟨by decide, by decide, by decide⟩

/-- C2 (amended): close-then-reopen reconstructs the pre-close state modulo
wall-clock expiration, provided every session operation round-trips through
the textual log: keys and values are single wire tokens and positive ttls
render to a token that parses back to the same duration. For such a session
run from the fresh store (`Store.New` over an empty log), reopening over the
produced log succeeds and yields a store with the same keys in the same
order, the same values, and an expiration present exactly where the
pre-close store had one (the expiration instants themselves are recomputed
from the replay wall clock — the "modulo wall-clock expiration" allowance).
Without the token restriction the claim fails (see the counterexample). -/
theorem C2_amended (pd : String → Option Int) (dts : Int → String)
    (ops : List Op) (now₀ now₁ : Int)
    (hgood : ∀ op ∈ ops, goodOp pd dts op) :
    Store.New pd dts true [] now₀ = Except.ok initStore ∧
    ∃ s₂, Store.New pd dts true (applyOps dts initStore ops).aofLog now₁
        = Except.ok s₂ ∧
      itemsShape s₂.items = itemsShape (applyOps dts initStore ops).items := by
  refine ⟨rfl, ?_⟩
  have hlog : (applyOps dts initStore ops).aofLog = ops.map (opLine dts) := by
    have h := applyOps_log_live dts initStore ops rfl rfl
    simpa using h
  rw [hlog]
  have hint : checkAOFIntegrity (ops.map (opLine dts)) = Except.ok () :=
    checkAOFIntegrity_opLines pd dts ops hgood
  have hload := loadLines_opLines pd dts now₁ ops
    { items := [], aofEnabled := true, isLoading := true,
      aofLog := ops.map (opLine dts) } hgood
  refine ⟨{ applyOps dts
      { items := [], aofEnabled := true, isLoading := true,
        aofLog := ops.map (opLine dts) } (ops.map (retime now₁)) with
      isLoading := false }, ?_, ?_⟩
  · simp only [Store.New, AOF.Load, hint, Bool.true_eq_false, if_false, hload]
  · show itemsShape (applyOps dts
        { items := [], aofEnabled := true, isLoading := true,
          aofLog := ops.map (opLine dts) } (ops.map (retime now₁))).items
      = itemsShape (applyOps dts initStore ops).items
    exact itemsShape_applyOps_retime dts now₁ ops _ initStore rfl

/-- C2 witness: the amended statement for a concrete session with a plain
set, a ttl set and a delete. -/
theorem C2_witness :
    (∀ op ∈ ([Op.set ("a") ("1") 0 0, Op.set ("b") ("x") 5 7, Op.del ("a")] : List Op),
        goodOp pdSample dtsSample op) ∧
    (Store.New pdSample dtsSample true [] 0 = Except.ok initStore ∧
      ∃ s₂, Store.New pdSample dtsSample true
          (applyOps dtsSample initStore
            [Op.set ("a") ("1") 0 0, Op.set ("b") ("x") 5 7, Op.del ("a")]).aofLog 11
          = Except.ok s₂ ∧
        itemsShape s₂.items
          = itemsShape (applyOps dtsSample initStore
              [Op.set ("a") ("1") 0 0, Op.set ("b") ("x") 5 7, Op.del ("a")]).items) :=
  ⟨by decide,
    C2_amended pdSample dtsSample
      [Op.set ("a") ("1") 0 0, Op.set ("b") ("x") 5 7, Op.del ("a")] 0 11 (by decide)⟩

end CacheFlow

